import Mathlib

set_option linter.unusedVariables false

/-!
Verification of the Table Layout & Resize Engine (obsidian-table-drag).

Shallow embedding of the engine's core algorithms over exact rationals:
JavaScript numbers are modelled as `ℚ` (all operations used by the code —
addition, multiplication, division, `Math.max`, `Math.min`, `Math.floor`,
`Math.round` — are exact on the inputs the claims quantify over), and
fallible/absent values as `Option`.
-/

namespace TableDrag

/-- JavaScript `Math.round`: rounds half toward positive infinity. -/
def jsRound (x : ℚ) : ℤ := ⌊x + 1 / 2⌋

/-- Embedding of `roundToStep` (src/unnamed/part_001, helpers): nearest-multiple
rounding; identity when `step <= 0`. -/
def roundToStep (v step : ℚ) : ℚ :=
  if 0 < step then ((jsRound (v / step) : ℤ) : ℚ) * step else v

/-- Embedding of `applyDeltaWithSnap` (src/unnamed/part_001, layout):
clamp `left + dx` to `[minPx, total - minPx]`; when snapping is active and
`step > 0`, round to the nearest multiple of `step` and re-clamp; the right
extent is `total` minus the left extent.  The `right` argument is unused by
the source as well. -/
def applyDeltaWithSnap (left right total dx minPx step : ℚ) (disableSnap : Bool) :
    ℚ × ℚ :=
  let nl0 := left + dx
  let nl1 := max minPx (min (total - minPx) nl0)
  let nl2 :=
    if disableSnap = false ∧ 0 < step then
      max minPx (min (total - minPx) (roundToStep nl1 step))
    else nl1
  (nl2, total - nl2)

/-- Embedding of `normalizeRatios` (src/src/core/resize.ts and
src/unnamed/part_001, helpers): each extent floored at 1 before summation;
uniform `1/n` split when the floored total is non-positive. -/
def normalizeRatios (px : List ℚ) : List ℚ :=
  let s := px.foldl (fun a b => a + max 1 b) 0
  if s ≤ 0 then px.map (fun _ => 1 / (px.length : ℚ))
  else px.map (fun w => max 1 w / s)

/-- The floored sum computed by `normalizeRatios`. -/
def flooredSum (px : List ℚ) : ℚ := (px.map (fun w => max 1 w)).sum

lemma foldl_add_max (px : List ℚ) (c : ℚ) :
    px.foldl (fun a b => a + max 1 b) c = c + flooredSum px := by
  induction px generalizing c with
  | nil => simp [flooredSum]
  | cons h t ih =>
    simp only [List.foldl_cons, flooredSum, List.map_cons, List.sum_cons] at *
    rw [ih]
    ring

lemma flooredSum_ge_length (px : List ℚ) : (px.length : ℚ) ≤ flooredSum px := by
  induction px with
  | nil => simp [flooredSum]
  | cons h t ih =>
    simp only [flooredSum, List.map_cons, List.sum_cons, List.length_cons] at *
    push_cast
    have : (1 : ℚ) ≤ max 1 h := le_max_left _ _
    linarith

lemma flooredSum_pos (px : List ℚ) (hne : px ≠ []) : 0 < flooredSum px := by
  have hlen : 0 < px.length := List.length_pos.mpr hne
  have : (1 : ℚ) ≤ (px.length : ℚ) := by exact_mod_cast hlen
  have := flooredSum_ge_length px
  linarith

lemma sum_map_div (px : List ℚ) (s : ℚ) :
    (px.map (fun w => max 1 w / s)).sum = flooredSum px / s := by
  induction px with
  | nil => simp [flooredSum]
  | cons h t ih =>
    simp only [flooredSum, List.map_cons, List.sum_cons] at *
    rw [ih, add_div]

end TableDrag

namespace TableDrag

/-- C2: for redistribute calls with `2 * min ≤ total`, the returned extents are
both at least `min` and sum exactly to `total`. -/
theorem applyDeltaWithSnap_invariant (left right total dx minPx step : ℚ)
    (disableSnap : Bool) (h : 2 * minPx ≤ total) :
    minPx ≤ (applyDeltaWithSnap left right total dx minPx step disableSnap).1 ∧
    minPx ≤ (applyDeltaWithSnap left right total dx minPx step disableSnap).2 ∧
    (applyDeltaWithSnap left right total dx minPx step disableSnap).1 +
      (applyDeltaWithSnap left right total dx minPx step disableSnap).2 = total := by
  have hmm : minPx ≤ total - minPx := by linarith
  unfold applyDeltaWithSnap
  set nl1 := max minPx (min (total - minPx) (left + dx)) with hnl1
  by_cases hc : disableSnap = false ∧ 0 < step
  · simp only [hc, if_pos, and_true]
    set nl2 := max minPx (min (total - minPx) (roundToStep nl1 step)) with hnl2
    refine ⟨le_max_left _ _, ?_, by ring⟩
    have h1 : nl2 ≤ total - minPx := by
      rw [hnl2]
      exact max_le hmm (min_le_left _ _)
    linarith
  · simp only [hc, if_neg, not_false_iff]
    refine ⟨le_max_left _ _, ?_, by ring⟩
    have h1 : nl1 ≤ total - minPx := by
      rw [hnl1]
      exact max_le hmm (min_le_left _ _)
    linarith

/-- Witness for C2, at the spec scenario: columns 200/200, delta +37,
min 60, snap step 8: the result is (240, 160). -/
theorem applyDeltaWithSnap_invariant_witness :
    (2 : ℚ) * 60 ≤ 400 ∧
    (60 : ℚ) ≤ (applyDeltaWithSnap 200 200 400 37 60 8 false).1 ∧
    (60 : ℚ) ≤ (applyDeltaWithSnap 200 200 400 37 60 8 false).2 ∧
    (applyDeltaWithSnap 200 200 400 37 60 8 false).1 +
      (applyDeltaWithSnap 200 200 400 37 60 8 false).2 = 400 := by
  refine ⟨by norm_num, ?_⟩
  have h := applyDeltaWithSnap_invariant 200 200 400 37 60 8 false (by norm_num)
  exact h

end TableDrag

namespace TableDrag

lemma clamp_of_degenerate (minPx total x : ℚ) (h : total < 2 * minPx) :
    max minPx (min (total - minPx) x) = minPx := by
  have h1 : total - minPx ≤ minPx := by linarith
  exact max_eq_left (le_trans (min_le_left _ _) h1)

/-- C9 counterexample: with `min * 2 > total` (here 30 > 20) the two returned
extents still sum exactly to `total`, contradicting the claim that they do
not. -/
theorem applyDeltaWithSnap_degenerate_sum_counterexample :
    ¬ ((15 : ℚ) * 2 ≤ 20) ∧
    (applyDeltaWithSnap 10 10 20 0 15 0 true).1 +
      (applyDeltaWithSnap 10 10 20 0 15 0 true).2 = 20 := by
  constructor
  · norm_num
  · norm_num [applyDeltaWithSnap]

/-- C9 amended: when the precondition `min * 2 <= total` is violated, the
clamped extent lands on `min`, the other extent is `total - min` which is
strictly below `min`, and the two extents still sum exactly to `total`. -/
theorem applyDeltaWithSnap_degenerate (left right total dx minPx step : ℚ)
    (disableSnap : Bool) (h : total < 2 * minPx) :
    applyDeltaWithSnap left right total dx minPx step disableSnap =
      (minPx, total - minPx) ∧
    total - minPx < minPx ∧
    (applyDeltaWithSnap left right total dx minPx step disableSnap).1 +
      (applyDeltaWithSnap left right total dx minPx step disableSnap).2 = total := by
  have hlt : total - minPx < minPx := by linarith
  have hmain :
      applyDeltaWithSnap left right total dx minPx step disableSnap =
        (minPx, total - minPx) := by
    simp only [applyDeltaWithSnap, clamp_of_degenerate _ _ _ h, ite_self]
  exact ⟨hmain, hlt, by rw [hmain]; ring⟩

/-- Witness for C9 amended, at a concrete degenerate input. -/
theorem applyDeltaWithSnap_degenerate_witness :
    (20 : ℚ) < 2 * 15 ∧
    applyDeltaWithSnap 10 10 20 0 15 0 true = ((15 : ℚ), (5 : ℚ)) := by
  refine ⟨by norm_num, ?_⟩
  have h := applyDeltaWithSnap_degenerate 10 10 20 0 15 0 true (by norm_num)
  rw [h.1]
  norm_num

lemma flooredSum_of_nonpos (px : List ℚ) (h : ∀ x ∈ px, x ≤ 0) :
    flooredSum px = (px.length : ℚ) := by
  induction px with
  | nil => simp [flooredSum]
  | cons a t ih =>
    have ha : a ≤ 0 := h a (List.mem_cons_self _ _)
    have ht : ∀ x ∈ t, x ≤ 0 := fun x hx => h x (List.mem_cons_of_mem _ hx)
    simp only [flooredSum, List.map_cons, List.sum_cons, List.length_cons] at *
    rw [ih ht, max_eq_left (by linarith)]
    push_cast
    ring

/-- C3 counterexample: the input `[3, -4]` has non-positive total `-1`, yet
`normalizeRatios` returns `[3/4, 1/4]`, not the uniform `1/2` split. -/
theorem normalizeRatios_nonpos_total_counterexample :
    ((3 : ℚ) + (-4)) ≤ 0 ∧
    normalizeRatios [3, -4] = [3 / 4, 1 / 4] ∧
    normalizeRatios [3, -4] ≠ [1 / 2, 1 / 2] := by
  refine ⟨by norm_num, ?_, ?_⟩ <;> norm_num [normalizeRatios]

/-- C3 amended: for every non-empty input the ratios are all strictly positive
and sum exactly to 1; and when every entry of the input is non-positive the
result equals the uniform `1/n` split (the branch keyed on the floored total
being non-positive is unreachable for non-empty inputs). -/
theorem normalizeRatios_amended (px : List ℚ) (hne : px ≠ []) :
    (∀ r ∈ normalizeRatios px, 0 < r) ∧
    (normalizeRatios px).sum = 1 ∧
    ((∀ x ∈ px, x ≤ 0) →
      normalizeRatios px = px.map (fun _ => 1 / (px.length : ℚ))) := by
  have hs : 0 < flooredSum px := flooredSum_pos px hne
  have hfold : px.foldl (fun a b => a + max 1 b) 0 = flooredSum px := by
    rw [foldl_add_max]; ring
  have hform : normalizeRatios px = px.map (fun w => max 1 w / flooredSum px) := by
    unfold normalizeRatios
    rw [hfold, if_neg (not_le.mpr hs)]
  refine ⟨?_, ?_, ?_⟩
  · intro r hr
    rw [hform] at hr
    obtain ⟨w, _, hw⟩ := List.mem_map.mp hr
    rw [← hw]
    exact div_pos (lt_of_lt_of_le one_pos (le_max_left 1 w)) hs
  · rw [hform, sum_map_div, div_self (ne_of_gt hs)]
  · intro hall
    rw [hform, flooredSum_of_nonpos px hall]
    refine List.map_congr_left ?_
    intro a ha
    rw [max_eq_left (by linarith [hall a ha])]

/-- Witness for C3 amended, at the concrete input `[2, 2]`. -/
theorem normalizeRatios_amended_witness :
    ([2, 2] : List ℚ) ≠ [] ∧ (normalizeRatios [2, 2]).sum = 1 := by
  exact ⟨by simp, (normalizeRatios_amended [2, 2] (by simp)).2.1⟩

end TableDrag

namespace TableDrag

/-- Embedding of `normalizeFingerprint` (src/unnamed/part_001, helpers):
strip any `#index` suffix that Live Preview may append, i.e. keep the part
of the string before the first `#`. -/
def normalizeFingerprint (fp : String) : String :=
  String.mk (fp.toList.takeWhile (fun c => c ≠ '#'))

/-- A key of the persisted `tables` map.  The real store is keyed by JSON
strings; the constructors stand for the distinct serializations occurring in
the data: `canonical path fp` for the output of `canonicalKeyString`
(`\x7bpath, fingerprint\x7d`), `legacy` for the older serialization that also
carries line numbers, and `malformed s` for an entry whose key `JSON.parse`
cannot parse (the migration scan skips it).  Distinct constructors or fields
always serialize to distinct strings, so equality of `StoreKey` matches
equality of the underlying JSON keys. -/
inductive StoreKey where
  | canonical (path fp : String)
  | legacy (path : String) (lineStart lineEnd : Int) (fp : String)
  | malformed (s : String)
deriving DecidableEq

/-- Parsing a stored key back to its `path` and raw `fingerprint`
(`JSON.parse` inside the scan loops; `none` models a thrown exception). -/
def parseKey : StoreKey → Option (String × String)
  | .canonical p fp => some (p, fp)
  | .legacy p _ _ fp => some (p, fp)
  | .malformed _ => none

/-- A persisted per-table size record (`TableSizes`). -/
structure TableSizes where
  ratios : List ℚ
  lastPxWidth : Option ℚ := none
  tablePxWidth : Option ℚ := none
  rowHeights : List (Nat × ℚ) := []
  updatedAt : Int
deriving DecidableEq

/-- The `tables` map of the data store, in insertion order (JavaScript object
entries enumerate in insertion order). -/
abbrev Store := List (StoreKey × TableSizes)

/-- Property read `tables[k]`. -/
def storeFind (st : Store) (k : StoreKey) : Option TableSizes :=
  (st.find? (fun e => decide (e.1 = k))).map (fun e => e.2)

/-- Property write `tables[k] = v`: overwrite in place when the key exists,
otherwise append (insertion order). -/
def storePut (st : Store) (k : StoreKey) (v : TableSizes) : Store :=
  if (storeFind st k).isSome then
    st.map (fun e => if e.1 = k then (k, v) else e)
  else st ++ [(k, v)]

/-- The running best timestamp of the legacy scan (`bestTs`, -1 when no
candidate has been found yet). -/
def legacyTs : Option (StoreKey × TableSizes) → Int
  | none => -1
  | some e => e.2.updatedAt

/-- One iteration of the legacy-migration scan in
`StorageManager.findOrMigrateToCanonicalKey`: skip unparseable keys, keep the
entry when its path and normalized fingerprint match and its `updatedAt`
strictly exceeds the best so far. -/
def scanStep (path norm : String) (acc : Option (StoreKey × TableSizes))
    (e : StoreKey × TableSizes) : Option (StoreKey × TableSizes) :=
  match parseKey e.1 with
  | none => acc
  | some (p, f) =>
    if p = path ∧ normalizeFingerprint f = norm ∧ legacyTs acc < e.2.updatedAt
    then some e else acc

/-- The full legacy scan over the store. -/
def bestLegacy (st : Store) (path norm : String) :
    Option (StoreKey × TableSizes) :=
  st.foldl (scanStep path norm) none

/-- An entry is a candidate of the scan: its key parses, its path equals the
lookup path and its normalized fingerprint equals the canonical one. -/
def keyMatches (path norm : String) (e : StoreKey × TableSizes) : Prop :=
  ∃ p f, parseKey e.1 = some (p, f) ∧ p = path ∧ normalizeFingerprint f = norm

/-- Embedding of `StorageManager.findOrMigrateToCanonicalKey`: return the
canonical key; when no record exists under it, copy the best matching legacy
record (if any) to the canonical key. -/
def findOrMigrateToCanonicalKey (st : Store) (path fp : String) :
    StoreKey × Store :=
  let canon := StoreKey.canonical path (normalizeFingerprint fp)
  match storeFind st canon with
  | some _ => (canon, st)
  | none =>
    match bestLegacy st path (normalizeFingerprint fp) with
    | some b => (canon, storePut st canon b.2)
    | none => (canon, st)

/-- Embedding of `StorageManager.getLatestForPath`: the entry with the
greatest `updatedAt` whose parsed path equals `path`, regardless of
fingerprint; unparseable keys are skipped. -/
def getLatestForPath (st : Store) (path : String) :
    Option (StoreKey × TableSizes) :=
  st.foldl
    (fun acc e =>
      match parseKey e.1 with
      | none => acc
      | some (p, _) =>
        if p = path ∧ legacyTs acc < e.2.updatedAt then some e else acc)
    none

end TableDrag

namespace TableDrag

lemma storeFind_cons (a : StoreKey) (v : TableSizes) (t : Store) (k : StoreKey) :
    storeFind ((a, v) :: t) k = if a = k then some v else storeFind t k := by
  unfold storeFind
  by_cases h : a = k
  · rw [List.find?_cons_of_pos _ (by simp [h])]
    simp [h]
  · rw [List.find?_cons_of_neg _ (by simp [h])]
    simp [h]

lemma storeFind_append (st l : Store) (k : StoreKey) :
    storeFind (st ++ l) k =
      (storeFind st k).elim (storeFind l k) (fun v => some v) := by
  induction st with
  | nil => simp [storeFind]
  | cons e t ih =>
    obtain ⟨a, v⟩ := e
    by_cases h : a = k <;> simp [storeFind_cons, h, List.cons_append, ih]

lemma storeFind_map_overwrite (st : Store) (k : StoreKey) (v : TableSizes)
    (h : (storeFind st k).isSome) :
    storeFind (st.map (fun e => if e.1 = k then (k, v) else e)) k = some v := by
  induction st with
  | nil => simp [storeFind] at h
  | cons e t ih =>
    obtain ⟨a, w⟩ := e
    by_cases hak : a = k
    · simp [hak, storeFind_cons]
    · have h' : (storeFind t k).isSome := by
        simpa [storeFind_cons, hak] using h
      simp [hak, storeFind_cons, ih h']

lemma storePut_find_self (st : Store) (k : StoreKey) (v : TableSizes) :
    storeFind (storePut st k v) k = some v := by
  unfold storePut
  by_cases h : (storeFind st k).isSome
  · rw [if_pos h]
    exact storeFind_map_overwrite st k v h
  · rw [if_neg h]
    have hnone : storeFind st k = none := Option.not_isSome_iff_eq_none.mp h
    rw [storeFind_append, hnone]
    simp [storeFind_cons]

lemma mem_find_isSome (st : Store) (e : StoreKey × TableSizes) (he : e ∈ st) :
    (storeFind st e.1).isSome := by
  induction st with
  | nil => cases he
  | cons a t ih =>
    obtain ⟨k0, v0⟩ := a
    rcases List.mem_cons.mp he with rfl | ht
    · simp [storeFind_cons]
    · by_cases hk : k0 = e.1
      · simp [storeFind_cons, hk]
      · simpa [storeFind_cons, hk] using ih ht

lemma legacyTs_foldl_mono (st : Store) (path norm : String)
    (acc : Option (StoreKey × TableSizes)) :
    legacyTs acc ≤ legacyTs (st.foldl (scanStep path norm) acc) := by
  induction st generalizing acc with
  | nil => simp
  | cons e t ih =>
    refine le_trans ?_ (ih (scanStep path norm acc e))
    cases hp : parseKey e.1 with
    | none => simp [scanStep, hp]
    | some pf =>
      obtain ⟨p, f⟩ := pf
      simp only [scanStep, hp]
      by_cases hc : p = path ∧ normalizeFingerprint f = norm ∧
          legacyTs acc < e.2.updatedAt
      · rw [if_pos hc]
        exact le_of_lt hc.2.2
      · rw [if_neg hc]

lemma foldl_scan_ts_ge (st : Store) (path norm : String)
    (e : StoreKey × TableSizes) (hm : keyMatches path norm e) :
    ∀ acc, e ∈ st →
      e.2.updatedAt ≤ legacyTs (st.foldl (scanStep path norm) acc) := by
  induction st with
  | nil => intro acc he; cases he
  | cons a t ih =>
    intro acc he
    rcases List.mem_cons.mp he with rfl | ht
    · rw [List.foldl_cons]
      refine le_trans ?_ (legacyTs_foldl_mono t path norm (scanStep path norm acc e))
      obtain ⟨p, f, hp, hpath, hfp⟩ := hm
      simp only [scanStep, hp]
      by_cases hlt : legacyTs acc < e.2.updatedAt
      · rw [if_pos ⟨hpath, hfp, hlt⟩]
        exact le_refl _
      · rw [if_neg (by tauto)]
        exact not_lt.mp hlt
    · rw [List.foldl_cons]
      exact ih (scanStep path norm acc a) ht

lemma foldl_scan_result (st : Store) (path norm : String) :
    ∀ acc, st.foldl (scanStep path norm) acc = acc ∨
      ∃ b, st.foldl (scanStep path norm) acc = some b ∧ b ∈ st ∧
        keyMatches path norm b := by
  induction st with
  | nil => intro acc; left; rfl
  | cons a t ih =>
    intro acc
    have hstep : scanStep path norm acc a = acc ∨
        (scanStep path norm acc a = some a ∧ keyMatches path norm a) := by
      cases hp : parseKey a.1 with
      | none => left; simp [scanStep, hp]
      | some pf =>
        obtain ⟨p, f⟩ := pf
        by_cases hc : p = path ∧ normalizeFingerprint f = norm ∧
            legacyTs acc < a.2.updatedAt
        · right
          exact ⟨by simp only [scanStep, hp]; rw [if_pos hc], ⟨p, f, hp, hc.1, hc.2.1⟩⟩
        · left
          simp only [scanStep, hp]
          rw [if_neg hc]
    rcases ih (scanStep path norm acc a) with h | ⟨b, hb, hmem, hmatch⟩
    · rcases hstep with h2 | ⟨h2, hm2⟩
      · left
        rw [List.foldl_cons, h, h2]
      · right
        exact ⟨a, by rw [List.foldl_cons, h, h2], List.mem_cons_self _ _, hm2⟩
    · right
      exact ⟨b, by rw [List.foldl_cons]; exact hb,
        List.mem_cons_of_mem _ hmem, hmatch⟩

lemma bestLegacy_spec (st : Store) (path norm : String)
    (b : StoreKey × TableSizes) (hbest : bestLegacy st path norm = some b) :
    b ∈ st ∧ keyMatches path norm b ∧
    ∀ e ∈ st, keyMatches path norm e → e.2.updatedAt ≤ b.2.updatedAt := by
  rcases foldl_scan_result st path norm none with h | ⟨b', hb', hmem, hmatch⟩
  · rw [bestLegacy] at hbest
    rw [h] at hbest
    cases hbest
  · rw [bestLegacy] at hbest
    rw [hb'] at hbest
    obtain rfl : b' = b := by injection hbest
    refine ⟨hmem, hmatch, ?_⟩
    intro e he hme
    have := foldl_scan_ts_ge st path norm e hme none he
    rw [hb'] at this
    exact this

end TableDrag

namespace TableDrag

/-- C4: when the canonical key misses but a legacy entry with the same path
and canonical fingerprint exists, resolution copies the most-recently-updated
such record to the canonical key, leaves the legacy entry (and the rest of the
store) in place, and every subsequent resolution of the same identity returns
the canonical key with the store unmodified. -/
theorem findOrMigrate_promotes (st : Store) (path fp : String)
    (b : StoreKey × TableSizes)
    (hmiss : storeFind st (StoreKey.canonical path (normalizeFingerprint fp)) = none)
    (hbest : bestLegacy st path (normalizeFingerprint fp) = some b) :
    (findOrMigrateToCanonicalKey st path fp).1 =
        StoreKey.canonical path (normalizeFingerprint fp) ∧
    (findOrMigrateToCanonicalKey st path fp).2 =
        st ++ [(StoreKey.canonical path (normalizeFingerprint fp), b.2)] ∧
    storeFind (findOrMigrateToCanonicalKey st path fp).2
        (StoreKey.canonical path (normalizeFingerprint fp)) = some b.2 ∧
    storeFind (findOrMigrateToCanonicalKey st path fp).2 b.1 = storeFind st b.1 ∧
    b ∈ st ∧ keyMatches path (normalizeFingerprint fp) b ∧
    (∀ e ∈ st, keyMatches path (normalizeFingerprint fp) e →
        e.2.updatedAt ≤ b.2.updatedAt) ∧
    findOrMigrateToCanonicalKey (findOrMigrateToCanonicalKey st path fp).2 path fp =
        ((findOrMigrateToCanonicalKey st path fp).1,
         (findOrMigrateToCanonicalKey st path fp).2) := by
  obtain ⟨hmem, hmatch, hmax⟩ := bestLegacy_spec st path _ b hbest
  have hres : findOrMigrateToCanonicalKey st path fp =
      (StoreKey.canonical path (normalizeFingerprint fp),
       st ++ [(StoreKey.canonical path (normalizeFingerprint fp), b.2)]) := by
    simp only [findOrMigrateToCanonicalKey, hmiss, hbest]
    unfold storePut
    rw [hmiss]
    simp
  have hfound : storeFind
      (st ++ [(StoreKey.canonical path (normalizeFingerprint fp), b.2)])
      (StoreKey.canonical path (normalizeFingerprint fp)) = some b.2 := by
    rw [storeFind_append, hmiss]
    simp [storeFind_cons]
  have hbsome : (storeFind st b.1).isSome := mem_find_isSome st b hmem
  obtain ⟨v, hv⟩ := Option.isSome_iff_exists.mp hbsome
  refine ⟨by rw [hres], by rw [hres], by rw [hres]; exact hfound, ?_, hmem, hmatch,
    hmax, ?_⟩
  · rw [hres]
    rw [storeFind_append, hv]
    simp
  · rw [hres]
    simp only [findOrMigrateToCanonicalKey, hfound]

/-- Concrete store used by the C4 witness: a single legacy entry for path
n.md whose raw fingerprint carries a Live Preview suffix. -/
def stW : Store :=
  [(StoreKey.legacy "n.md" 3 5 "2:A|B#1",
    { ratios := [1/2, 1/2], lastPxWidth := some 300, updatedAt := 100 })]

/-- Witness for C4: promotion of the legacy record of `stW` and the
fixed-point behavior of the subsequent resolution, at a concrete input. -/
theorem findOrMigrate_promotes_witness :
    (findOrMigrateToCanonicalKey stW "n.md" "2:A|B").2 =
      stW ++ [(StoreKey.canonical "n.md" (normalizeFingerprint "2:A|B"),
        { ratios := [1/2, 1/2], lastPxWidth := some 300, updatedAt := 100 })] ∧
    findOrMigrateToCanonicalKey
        (findOrMigrateToCanonicalKey stW "n.md" "2:A|B").2 "n.md" "2:A|B" =
      ((findOrMigrateToCanonicalKey stW "n.md" "2:A|B").1,
       (findOrMigrateToCanonicalKey stW "n.md" "2:A|B").2) := by
  have h := findOrMigrate_promotes stW "n.md" "2:A|B"
    (StoreKey.legacy "n.md" 3 5 "2:A|B#1",
     { ratios := [1/2, 1/2], lastPxWidth := some 300, updatedAt := 100 })
    rfl rfl
  exact ⟨h.2.1, h.2.2.2.2.2.2.2⟩

/-- The store write shared by every column-resize commit (pointer release at
ColumnHandleManager.ts onPointerUp, double-click, and keyboard commit; same
shape in TableManager.attachColumnHandleListeners): the record under the
resolved key is replaced by a fresh one holding only the normalized ratios,
the container width (`lastPxWidth`) and the timestamp. -/
def commitColumnResize (st : Store) (k : StoreKey) (finalPx : List ℚ)
    (containerWidth : ℚ) (now : Int) : Store :=
  storePut st k
    { ratios := normalizeRatios finalPx, lastPxWidth := some containerWidth,
      tablePxWidth := none, rowHeights := [], updatedAt := now }

/-- C10: a column-resize commit replaces the stored record with one containing
only ratios, lastPxWidth and updatedAt; any previously persisted per-row
heights and explicit table width under that key are discarded. -/
theorem commitColumnResize_discards (st : Store) (k : StoreKey)
    (old : TableSizes) (finalPx : List ℚ) (cw : ℚ) (now : Int)
    (hold : storeFind st k = some old) :
    storeFind (commitColumnResize st k finalPx cw now) k =
      some { ratios := normalizeRatios finalPx, lastPxWidth := some cw,
             tablePxWidth := none, rowHeights := [], updatedAt := now } ∧
    ∀ r, storeFind (commitColumnResize st k finalPx cw now) k = some r →
      r.rowHeights = [] ∧ r.tablePxWidth = none := by
  have h := storePut_find_self st k
    { ratios := normalizeRatios finalPx, lastPxWidth := some cw,
      tablePxWidth := none, rowHeights := [], updatedAt := now }
  refine ⟨h, ?_⟩
  intro r hr
  rw [commitColumnResize] at hr
  rw [h] at hr
  obtain rfl : _ = r := by injection hr
  exact ⟨rfl, rfl⟩

/-- Witness for C10: committing over a record that carries both a row-height
map and an explicit table width discards both. -/
theorem commitColumnResize_discards_witness :
    storeFind [(StoreKey.canonical "n.md" "2:A|B",
        { ratios := [1/2, 1/2], tablePxWidth := some 500,
          rowHeights := [(0, 40)], updatedAt := 7 })]
        (StoreKey.canonical "n.md" "2:A|B") =
      some { ratios := [1/2, 1/2], tablePxWidth := some 500,
             rowHeights := [(0, 40)], updatedAt := 7 } ∧
    storeFind
        (commitColumnResize
          [(StoreKey.canonical "n.md" "2:A|B",
            { ratios := [1/2, 1/2], tablePxWidth := some 500,
              rowHeights := [(0, 40)], updatedAt := 7 })]
          (StoreKey.canonical "n.md" "2:A|B") [120, 240] 360 9)
        (StoreKey.canonical "n.md" "2:A|B") =
      some { ratios := normalizeRatios [120, 240], lastPxWidth := some 360,
             tablePxWidth := none, rowHeights := [], updatedAt := 9 } := by
  refine ⟨rfl, ?_⟩
  exact (commitColumnResize_discards
    [(StoreKey.canonical "n.md" "2:A|B",
      { ratios := [1/2, 1/2], tablePxWidth := some 500,
        rowHeights := [(0, 40)], updatedAt := 7 })]
    (StoreKey.canonical "n.md" "2:A|B")
    { ratios := [1/2, 1/2], tablePxWidth := some 500,
      rowHeights := [(0, 40)], updatedAt := 7 } [120, 240] 360 9 rfl).1

end TableDrag

namespace TableDrag

/-- Split a character list on a separator character (all components, empty
components preserved). -/
def splitOnChar (sep : Char) : List Char → List (List Char)
  | [] => [[]]
  | c :: rest =>
    let r := splitOnChar sep rest
    if c = sep then [] :: r
    else
      match r with
      | [] => [[c]]
      | h :: t => (c :: h) :: t

/-- Modelled from the spec: the Column-Adaptation Resolver of spec section 4.5
is not present in the provided sources (only its data source,
`StorageManager.getLatestForPath`, is).  Historical header labels are parsed
from the historical fingerprint, whose format is
`columnCount:header1|header2|...`: the labels are the part after the first
colon, split on the bar character. -/
def histHeadersOfFingerprint (fp : String) : List String :=
  (splitOnChar '|' ((fp.toList.dropWhile (fun c => c ≠ ':')).drop 1)).map
    String.mk

/-- Modelled from the spec: the left-to-right subsequence alignment of the
Column-Adaptation Resolver (spec section 4.5, step 4), absent from the
provided sources.  Walk the live headers in order; whenever a live header
equals the next unconsumed historical header, carry that historical column's
width to the live position and advance the historical pointer; unmatched live
headers (insertions) receive the configured minimum width. -/
def adaptWidthsByHeaders (minW : ℚ) :
    List String → List (String × ℚ) → List ℚ
  | [], _ => []
  | _ :: live, [] => minW :: adaptWidthsByHeaders minW live []
  | lh :: live, (hh, w) :: hist =>
    if lh = hh then w :: adaptWidthsByHeaders minW live hist
    else minW :: adaptWidthsByHeaders minW live ((hh, w) :: hist)

/-- The historical record used by the C1 scenario: fingerprint `3:A|B|C`,
ratios reconstructing to pixel widths 100, 150, 250 at its stored base width
of 500. -/
def histSizes : TableSizes :=
  { ratios := [1/5, 3/10, 1/2], lastPxWidth := some 500, updatedAt := 50 }

/-- The store used by the C1 scenario: a single record for `doc.md` under the
historical fingerprint. -/
def stHist : Store := [(StoreKey.canonical "doc.md" "3:A|B|C", histSizes)]

/-- C1: the resolved key for the live headers A,X,B,C has no stored record;
the most recent record for the same documentPath has historical headers
A,B,C with widths 100,150,250 (ratios times the stored base width 500); the
adaptation step assigns the inserted column X the configured minimum width
and carries 100,150,250 over to A,B,C in that order. -/
theorem columnAdaptation_scenario (m : ℚ) :
    storeFind stHist
        (StoreKey.canonical "doc.md" (normalizeFingerprint "4:A|X|B|C")) =
      none ∧
    getLatestForPath stHist "doc.md" =
      some (StoreKey.canonical "doc.md" "3:A|B|C", histSizes) ∧
    histHeadersOfFingerprint "3:A|B|C" = ["A", "B", "C"] ∧
    histSizes.ratios.map (fun r => r * 500) = [100, 150, 250] ∧
    adaptWidthsByHeaders m ["A", "X", "B", "C"]
        (List.zip ["A", "B", "C"] [100, 150, 250]) = [100, m, 150, 250] := by
  refine ⟨rfl, rfl, rfl, by norm_num [histSizes], ?_⟩
  simp [adaptWidthsByHeaders, List.zip]

/-- The row-resize settings consumed by the row-handle keyboard handler. -/
structure RowSettings where
  rowMinHeightPx : ℚ
  rowKeyboardStepPx : ℚ

/-- Keys distinguished by the row-handle keydown handler. -/
inductive RowKey where
  | arrowUp
  | arrowDown
  | enter
  | space
  | other
deriving DecidableEq

/-- Property write `rowHeights[i] = v` on the per-row height map. -/
def putRowHeight (rh : List (Nat × ℚ)) (i : Nat) (v : ℚ) : List (Nat × ℚ) :=
  if (rh.find? (fun e => decide (e.1 = i))).isSome then
    rh.map (fun e => if e.1 = i then (i, v) else e)
  else rh ++ [(i, v)]

/-- Embedding of the row-handle keydown handler
(TableManager.attachRowHandleListeners; RowHandleManager.attachListeners has
the same logic): `styleHeight` is the row's explicit style height (`none`
models an empty `row.style.height`), `measuredH` the measured rect height.
Returns the row's style height after the event and the updated store. -/
def rowHandleKeydown (set : RowSettings) (styleHeight : Option ℚ)
    (measuredH : ℚ) (key : RowKey) (ctrl : Bool) (st : Store) (k : StoreKey)
    (rIndex : Nat) (fallbackRatios : List ℚ) (now : Int) :
    Option ℚ × Store :=
  let step := if ctrl then 1 else set.rowKeyboardStepPx
  let t0 := measuredH
  let s1 :=
    if key = RowKey.arrowUp then
      (max set.rowMinHeightPx ((⌊t0 - step⌋ : ℤ) : ℚ), true)
    else (t0, false)
  let s2 :=
    if key = RowKey.arrowDown then
      (max set.rowMinHeightPx ((⌊s1.1 + step⌋ : ℤ) : ℚ), true)
    else s1
  let s3 :=
    if (key = RowKey.enter ∨ key = RowKey.space) ∧ styleHeight.isSome then
      ((none : Option ℚ), true)
    else (styleHeight, s2.2)
  if s3.2 then
    let keyData := (storeFind st k).getD { ratios := fallbackRatios, updatedAt := now }
    let keyData' :=
      { keyData with rowHeights := putRowHeight keyData.rowHeights rIndex s2.1,
                     updatedAt := now }
    (some s2.1, storePut st k keyData')
  else (styleHeight, st)

/-- C8: evaluating the row-handle keydown handler for Enter on a row whose
explicit style height is 50px: the handler ends with the explicit height
re-applied (50px) and persisted, not cleared to automatic. -/
theorem rowHandleKeydown_enter_reapplies_height :
    (rowHandleKeydown ⟨24, 4⟩ (some 50) 50 RowKey.enter false []
        (StoreKey.canonical "n.md" "2:A|B") 0 [1, 1] 5).1 = some 50 ∧
    (rowHandleKeydown ⟨24, 4⟩ (some 50) 50 RowKey.enter false []
        (StoreKey.canonical "n.md" "2:A|B") 0 [1, 1] 5).1 ≠ none ∧
    storeFind (rowHandleKeydown ⟨24, 4⟩ (some 50) 50 RowKey.enter false []
        (StoreKey.canonical "n.md" "2:A|B") 0 [1, 1] 5).2
        (StoreKey.canonical "n.md" "2:A|B") =
      some { ratios := [1, 1], rowHeights := [(0, 50)], updatedAt := 5 } := by
  refine ⟨rfl, by simp [rowHandleKeydown, putRowHeight, storePut, storeFind], rfl⟩

end TableDrag

namespace TableDrag

/-- The rendering surface hosting a table, as detected by
`measureContextForEl`. -/
inductive Host where
  | cm6
  | reading
  | unknown
deriving DecidableEq

/-- A per-evaluation measurement snapshot (`ContextMeasurement`). -/
structure ContextMeasurement where
  host : Host
  paneWidth : ℚ
  lineWidth : ℚ
  sideMargin : ℚ
  leftOffset : ℚ
  rightOffset : ℚ

/-- The settings consumed by the breakout engine. -/
structure BreakoutSettings where
  bleedWideTables : Bool
  bleedGutterPx : ℚ

/-- The inline style properties touched by the breakout engine on an element
(`none` models the empty string).  `transform` holds the `translateX`
argument, `overflowScroll` is `some true` for `auto` and `some false` for
`visible`, `positionRel` and `background` model the fixed values the code
assigns (`relative`, the theme background variable). -/
structure StyleRec where
  width : Option ℚ
  marginLeft : Option ℚ
  marginRight : Option ℚ
  transform : Option ℚ
  overflowScroll : Option Bool
  positionRel : Bool
  zIndex : Option ℚ
  paddingLeft : Option ℚ
  paddingRight : Option ℚ
  background : Bool
deriving DecidableEq

/-- All style properties unset. -/
def StyleRec.empty : StyleRec :=
  ⟨none, none, none, none, none, false, none, none, none, false⟩

/-- The observable per-table state of the breakout engine: the table's and
(when present) the cm-table-widget container's styles, the breakout classes,
the legacy wrapper, the one-shot centering marker, the retry counter, and the
pending scheduled re-evaluation (`breakoutRAF`). -/
structure BreakoutState where
  visible : Bool
  hasWidget : Bool
  tableStyle : StyleRec
  widgetStyle : StyleRec
  breakoutCmClass : Bool
  breakoutClass : Bool
  wrapped : Bool
  centered : Bool
  scrollLeft : ℚ
  retryCount : Nat
  pending : Option ℚ
  outerDragActive : Bool
deriving DecidableEq

/-- `getBreakoutContainer`: the cm-table-widget when one exists, else the
table itself. -/
def containerStyle (s : BreakoutState) : StyleRec :=
  if s.hasWidget then s.widgetStyle else s.tableStyle

/-- Write the container's style back (to the widget when one exists, else to
the table). -/
def setContainerStyle (s : BreakoutState) (c : StyleRec) : BreakoutState :=
  if s.hasWidget then { s with widgetStyle := c } else { s with tableStyle := c }

/-- Embedding of `scheduleBreakoutForTable`: a no-op when a computation is
already pending, otherwise record the scheduled delay. -/
def scheduleBreakoutForTable (s : BreakoutState) (delayMs : ℚ) : BreakoutState :=
  if s.pending.isSome then s else { s with pending := some delayMs }

/-- Embedding of `BreakoutManager.updateBreakoutForTable`
(src/unnamed/part_001).  `intrinsicRaw` is `max(scrollWidth, offsetWidth)`
of the table, `elScrollWidth` the container's `scrollWidth` used for the
one-shot scroll centering. -/
def updateBreakoutForTable (set : BreakoutSettings) (s : BreakoutState)
    (ctx : ContextMeasurement) (intrinsicRaw elScrollWidth : ℚ) :
    BreakoutState :=
  if s.visible = false then s
  else if ctx.paneWidth ≤ 0 ∨ ctx.lineWidth ≤ 0 then
    if s.retryCount < 5 then
      scheduleBreakoutForTable { s with retryCount := s.retryCount + 1 }
        (min 100 (10 * 2 ^ s.retryCount))
    else { s with retryCount := 0 }
  else
    let s1 := { s with retryCount := 0 }
    let intrinsic := max intrinsicRaw 0
    let specified := (s1.tableStyle.width).getD 0
    let desired := max intrinsic specified
    if desired > ctx.lineWidth + 1 then
      let bleed := if set.bleedWideTables then max 0 set.bleedGutterPx else 0
      let leftAdj := max 0 (ctx.leftOffset - bleed)
      let rightAdj := max 0 (ctx.rightOffset - bleed)
      let paneAvail := max 0 (ctx.paneWidth - bleed * 2)
      let wantScroll := desired > paneAvail + 1
      if ctx.host = Host.cm6 then
        let s2 := { s1 with wrapped := false }
        let pad : ℚ :=
          if wantScroll then 0 else max 0 ((⌊(paneAvail - desired) / 2⌋ : ℤ) : ℚ)
        let c := containerStyle s2
        let c' := { c with
          width := some ((⌊paneAvail⌋ : ℤ) : ℚ),
          transform := some (-(((⌊leftAdj⌋ : ℤ) : ℚ))),
          overflowScroll := some wantScroll,
          positionRel := true,
          zIndex := some 1,
          paddingLeft := some pad,
          paddingRight := some pad }
        let s3 := setContainerStyle s2 c'
        let s4 := { s3 with breakoutCmClass := true }
        if wantScroll ∧ s4.outerDragActive = false ∧ s4.centered = false then
          { s4 with
            scrollLeft :=
              max 0 ((⌊(max elScrollWidth desired - paneAvail) / 2⌋ : ℤ) : ℚ),
            centered := true }
        else s4
      else
        let s2 := { s1 with wrapped := false }
        let pad : ℚ :=
          if wantScroll then 0 else max 0 ((⌊(paneAvail - desired) / 2⌋ : ℤ) : ℚ)
        let t := s2.tableStyle
        let t' := { t with
          marginLeft := some (-(((⌊leftAdj⌋ : ℤ) : ℚ))),
          marginRight := some (-(((⌊rightAdj⌋ : ℤ) : ℚ))),
          overflowScroll := some wantScroll,
          positionRel := true,
          zIndex := some 10,
          background := true,
          paddingLeft := some pad,
          paddingRight := some pad }
        { s2 with tableStyle := t', breakoutClass := true }
    else
      let s2 := setContainerStyle s1 StyleRec.empty
      let s3 := { s2 with breakoutCmClass := false, wrapped := false,
                          breakoutClass := false }
      let t := s3.tableStyle
      let t' := { t with
        width := none,
        marginLeft := none,
        marginRight := none,
        overflowScroll := none,
        positionRel := false,
        zIndex := none,
        paddingLeft := none,
        paddingRight := none,
        background := false }
      { s3 with tableStyle := t' }

/-- The table is marked overflowing: one of the two breakout classes is set. -/
def breakoutStyled (s : BreakoutState) : Prop :=
  s.breakoutCmClass = true ∨ s.breakoutClass = true

/-- Every breakout style property is cleared: no breakout class, no legacy
wrapper, the container's styles fully unset, and every table style property
the clear path touches unset. -/
def breakoutCleared (s : BreakoutState) : Prop :=
  s.breakoutCmClass = false ∧ s.breakoutClass = false ∧ s.wrapped = false ∧
  (if s.hasWidget then s.widgetStyle = StyleRec.empty
   else s.tableStyle = StyleRec.empty) ∧
  s.tableStyle.width = none ∧ s.tableStyle.marginLeft = none ∧
  s.tableStyle.marginRight = none ∧ s.tableStyle.overflowScroll = none ∧
  s.tableStyle.positionRel = false ∧ s.tableStyle.zIndex = none ∧
  s.tableStyle.paddingLeft = none ∧ s.tableStyle.paddingRight = none ∧
  s.tableStyle.background = false

end TableDrag

namespace TableDrag

lemma updateBreakout_styled_of_over (set : BreakoutSettings) (s : BreakoutState)
    (ctx : ContextMeasurement) (intrinsicRaw elScrollWidth : ℚ)
    (hvis : s.visible = true)
    (hgood : ¬(ctx.paneWidth ≤ 0 ∨ ctx.lineWidth ≤ 0))
    (hover : max (max intrinsicRaw 0) ((s.tableStyle.width).getD 0) >
      ctx.lineWidth + 1) :
    breakoutStyled (updateBreakoutForTable set s ctx intrinsicRaw elScrollWidth) := by
  have hv : ¬ (s.visible = false) := by simp [hvis]
  unfold updateBreakoutForTable
  rw [if_neg hv, if_neg hgood]
  simp only [if_pos hover]
  by_cases hh : ctx.host = Host.cm6
  · rw [if_pos hh]
    by_cases hw : s.hasWidget <;>
      split_ifs <;>
        simp [breakoutStyled, setContainerStyle, containerStyle, hw]
  · rw [if_neg hh]
    simp [breakoutStyled]

lemma updateBreakout_cleared_of_under (set : BreakoutSettings) (s : BreakoutState)
    (ctx : ContextMeasurement) (intrinsicRaw elScrollWidth : ℚ)
    (hvis : s.visible = true)
    (hgood : ¬(ctx.paneWidth ≤ 0 ∨ ctx.lineWidth ≤ 0))
    (hunder : ¬ (max (max intrinsicRaw 0) ((s.tableStyle.width).getD 0) >
      ctx.lineWidth + 1)) :
    breakoutCleared (updateBreakoutForTable set s ctx intrinsicRaw elScrollWidth) := by
  have hv : ¬ (s.visible = false) := by simp [hvis]
  unfold updateBreakoutForTable
  rw [if_neg hv, if_neg hgood]
  simp only [if_neg hunder]
  by_cases hw : s.hasWidget <;>
    simp [breakoutCleared, setContainerStyle, containerStyle, hw, StyleRec.empty]

/-- C5: with measurable context (pane and line width positive) on a visible
table, the breakout evaluation marks the table overflowing (a breakout class
set) exactly when the maximum of the intrinsic content width and the
explicitly set table width exceeds the readable line width plus the 1-unit
tolerance; otherwise every prior breakout style property is cleared. -/
theorem updateBreakout_decision (set : BreakoutSettings) (s : BreakoutState)
    (ctx : ContextMeasurement) (intrinsicRaw elScrollWidth : ℚ)
    (hvis : s.visible = true) (hpw : 0 < ctx.paneWidth)
    (hlw : 0 < ctx.lineWidth) :
    (breakoutStyled (updateBreakoutForTable set s ctx intrinsicRaw elScrollWidth) ↔
      max (max intrinsicRaw 0) ((s.tableStyle.width).getD 0) > ctx.lineWidth + 1) ∧
    (max (max intrinsicRaw 0) ((s.tableStyle.width).getD 0) ≤ ctx.lineWidth + 1 →
      breakoutCleared (updateBreakoutForTable set s ctx intrinsicRaw elScrollWidth)) := by
  have hgood : ¬ (ctx.paneWidth ≤ 0 ∨ ctx.lineWidth ≤ 0) :=
    not_or.mpr ⟨not_le.mpr hpw, not_le.mpr hlw⟩
  constructor
  · constructor
    · intro hstyled
      by_contra hnot
      have hcl := updateBreakout_cleared_of_under set s ctx intrinsicRaw
        elScrollWidth hvis hgood hnot
      rcases hstyled with h | h
      · rw [hcl.1] at h
        cases h
      · rw [hcl.2.1] at h
        cases h
    · intro hover
      exact updateBreakout_styled_of_over set s ctx intrinsicRaw elScrollWidth
        hvis hgood hover
  · intro hunder
    exact updateBreakout_cleared_of_under set s ctx intrinsicRaw elScrollWidth
      hvis hgood (not_lt.mpr hunder)

end TableDrag

namespace TableDrag

/-- C6: with unmeasurable context (pane or line width non-positive) on a
visible table with no evaluation pending, the evaluation leaves all breakout
styling untouched; while fewer than five retries have been consumed it
increments the retry counter and schedules a retry whose delay doubles from
10 (10, 20, 40, 80) capped at 100; at the next failed evaluation after the
fifth retry it resets the counter and schedules nothing (until an external
re-evaluation). -/
theorem updateBreakout_retry (set : BreakoutSettings) (s : BreakoutState)
    (ctx : ContextMeasurement) (intrinsicRaw elScrollWidth : ℚ)
    (hvis : s.visible = true)
    (hbad : ctx.paneWidth ≤ 0 ∨ ctx.lineWidth ≤ 0)
    (hpend : s.pending = none) :
    (updateBreakoutForTable set s ctx intrinsicRaw elScrollWidth).tableStyle =
      s.tableStyle ∧
    (updateBreakoutForTable set s ctx intrinsicRaw elScrollWidth).widgetStyle =
      s.widgetStyle ∧
    (updateBreakoutForTable set s ctx intrinsicRaw elScrollWidth).breakoutCmClass =
      s.breakoutCmClass ∧
    (updateBreakoutForTable set s ctx intrinsicRaw elScrollWidth).breakoutClass =
      s.breakoutClass ∧
    (updateBreakoutForTable set s ctx intrinsicRaw elScrollWidth).wrapped =
      s.wrapped ∧
    (updateBreakoutForTable set s ctx intrinsicRaw elScrollWidth).scrollLeft =
      s.scrollLeft ∧
    (s.retryCount < 5 →
      (updateBreakoutForTable set s ctx intrinsicRaw elScrollWidth).retryCount =
        s.retryCount + 1 ∧
      (updateBreakoutForTable set s ctx intrinsicRaw elScrollWidth).pending =
        some (min 100 (10 * 2 ^ s.retryCount))) ∧
    (5 ≤ s.retryCount →
      (updateBreakoutForTable set s ctx intrinsicRaw elScrollWidth).retryCount = 0 ∧
      (updateBreakoutForTable set s ctx intrinsicRaw elScrollWidth).pending =
        none) := by
  have hv : ¬ (s.visible = false) := by simp [hvis]
  unfold updateBreakoutForTable
  rw [if_neg hv, if_pos hbad]
  by_cases hr : s.retryCount < 5
  · rw [if_pos hr]
    simp only [scheduleBreakoutForTable, hpend, Option.isSome_none,
      Bool.false_eq_true, if_false]
    simp
    omega
  · rw [if_neg hr]
    refine ⟨rfl, rfl, rfl, rfl, rfl, rfl, fun hlt => absurd hlt hr,
      fun _ => ⟨rfl, hpend⟩⟩

/-- The concrete breakout state used by the C5 and C6 witnesses: a visible
reading-view table with no widget, no styling and no pending work. -/
def plainState : BreakoutState :=
  { visible := true, hasWidget := false, tableStyle := StyleRec.empty,
    widgetStyle := StyleRec.empty, breakoutCmClass := false,
    breakoutClass := false, wrapped := false, centered := false,
    scrollLeft := 0, retryCount := 0, pending := none,
    outerDragActive := false }

/-- Witness for C5, at the spec scenario: intrinsic width 900 against line
width 700 marks the table overflowing; intrinsic width 650 leaves every
breakout style property cleared. -/
theorem updateBreakout_decision_witness :
    breakoutStyled (updateBreakoutForTable ⟨false, 0⟩ plainState
      ⟨Host.reading, 800, 700, 40, 40, 40⟩ 900 900) ∧
    breakoutCleared (updateBreakoutForTable ⟨false, 0⟩ plainState
      ⟨Host.reading, 800, 700, 40, 40, 40⟩ 650 650) := by
  constructor
  · exact (updateBreakout_decision ⟨false, 0⟩ plainState
      ⟨Host.reading, 800, 700, 40, 40, 40⟩ 900 900 rfl (by norm_num)
      (by norm_num)).1.mpr (by norm_num [plainState, StyleRec.empty])
  · exact (updateBreakout_decision ⟨false, 0⟩ plainState
      ⟨Host.reading, 800, 700, 40, 40, 40⟩ 650 650 rfl (by norm_num)
      (by norm_num)).2 (by norm_num [plainState, StyleRec.empty])

/-- Witness for C6, at a concrete unmeasurable context: the first failed
evaluation schedules a 10ms retry and leaves the styling untouched. -/
theorem updateBreakout_retry_witness :
    (updateBreakoutForTable ⟨false, 0⟩ plainState
      ⟨Host.unknown, 0, 0, 0, 0, 0⟩ 0 0).tableStyle = plainState.tableStyle ∧
    (updateBreakoutForTable ⟨false, 0⟩ plainState
      ⟨Host.unknown, 0, 0, 0, 0, 0⟩ 0 0).retryCount = 1 ∧
    (updateBreakoutForTable ⟨false, 0⟩ plainState
      ⟨Host.unknown, 0, 0, 0, 0, 0⟩ 0 0).pending = some 10 := by
  have h := updateBreakout_retry ⟨false, 0⟩ plainState
    ⟨Host.unknown, 0, 0, 0, 0, 0⟩ 0 0 rfl (Or.inl (by norm_num)) rfl
  refine ⟨h.1, (h.2.2.2.2.2.2.1 (by norm_num [plainState])).1, ?_⟩
  have h2 := (h.2.2.2.2.2.2.1 (by norm_num [plainState])).2
  rw [h2]
  norm_num [plainState]

end TableDrag

namespace TableDrag

/-- The settings consumed by the binding algorithm. -/
structure BindSettings where
  minColumnWidthPx : ℚ
  showOuterWidthHandle : Bool
  enableRowResize : Bool
  wrapLongText : Bool

/-- The DOM-observable state of one table element that the binding path
touches: the widths written to our colgroup's col elements (0 models an
unset width), the percent widths of the unmeasurable-width fallback, the
table's own style width, classes, and the counts of attached handles and
observers.  Row style heights are modelled separately (`rowHandleKeydown`);
the binding path's row-height application does not interact with column
widths, handles or the store. -/
structure TableState where
  bound : Bool
  colCount : Nat
  rowCount : Nat
  headerWidths : List ℚ
  colWidths : List ℚ
  colPercents : List ℚ
  styleWidth : Option ℚ
  managed : Bool
  wrapClass : Bool
  chandles : Nat
  ohandle : Bool
  rhandles : Nat
  observers : Nat
  hasHost : Bool
deriving DecidableEq

/-- JavaScript `a || b` on an optional number (`0`, like `undefined`, is
falsy). -/
def jsOr (a : Option ℚ) (b : ℚ) : ℚ :=
  match a with
  | some x => if x = 0 then b else x
  | none => b

/-- `TableManager.applyColWidths`: write `max(min, floor w)` positionally to
each col element that has a corresponding width; cols beyond the width list
keep their value, extra widths are ignored. -/
def applyColWidths (minW : ℚ) : List ℚ → List ℚ → List ℚ
  | [], _ => []
  | c :: cols, [] => c :: applyColWidths minW cols []
  | _ :: cols, w :: px =>
    max minW ((⌊w⌋ : ℤ) : ℚ) :: applyColWidths minW cols px

/-- `TableManager.ensureColgroup`: pad the col list with width-less cols up
to the column count, or drop extras. -/
def ensureColgroup (cols : List ℚ) (colCount : Nat) : List ℚ :=
  cols.take colCount ++ List.replicate (colCount - cols.length) 0

/-- The explicit-table-width application shared by the bound and unbound
paths: when the record carries a positive `tablePxWidth`, set the table's
style width to its floor. -/
def withTablePx (s : TableState) (tpw : Option ℚ) : TableState :=
  match tpw with
  | some tw => if 0 < tw then { s with styleWidth := some ((⌊tw⌋ : ℤ) : ℚ) } else s
  | none => s

/-- The pixel materialization step of `TableManager.applyStoredRatiosPx`:
width base is the measured width, else the record's last container width,
else its table width; bail out when no positive base exists. -/
def applyStoredPx (set : BindSettings) (s1 : TableState) (st : Store)
    (stored : TableSizes) (measuredW : ℚ) : TableState × Store :=
  if (if measuredW ≤ 0 then jsOr stored.lastPxWidth (jsOr stored.tablePxWidth 0)
      else measuredW) ≤ 0 then (s1, st)
  else
    ({ s1 with
        colWidths := applyColWidths set.minColumnWidthPx s1.colWidths
          (stored.ratios.map (fun q =>
            max set.minColumnWidthPx
              ((jsRound (q *
                (if measuredW ≤ 0 then
                  jsOr stored.lastPxWidth (jsOr stored.tablePxWidth 0)
                 else measuredW)) : ℤ) : ℚ))),
        managed := true }, st)

/-- Embedding of `TableManager.applyStoredRatiosPx`: re-resolve the key,
re-apply the stored ratios as pixel widths at the measured width (falling
back to the record's stored widths when unmeasurable), set the explicit
table width when the record has one. -/
def applyStoredRatiosPx (set : BindSettings) (s : TableState) (st : Store)
    (path fp : String) (measuredW : ℚ) : TableState × Store :=
  if s.colCount < 2 then (s, st)
  else
    let s0 := { s with colWidths := ensureColgroup s.colWidths s.colCount }
    let r := findOrMigrateToCanonicalKey st path fp
    match storeFind r.2 r.1 with
    | none => (s0, r.2)
    | some stored =>
      if stored.ratios.length ≠ s0.colCount then (s0, r.2)
      else applyStoredPx set (withTablePx s0 stored.tablePxWidth) r.2 stored measuredW

/-- The fresh-derivation path of the binding algorithm: pixel widths from
header cell widths when the header count matches the column count, else an
equal split of the container width; normalize to ratios, persist an initial
record under the resolved key, apply the pixel widths. -/
def deriveInitial (set : BindSettings) (s1 : TableState) (st1 : Store)
    (resolvedKey : StoreKey) (containerWidth : ℚ) (now : Int) :
    TableState × Store :=
  let px :=
    if s1.headerWidths.length = s1.colCount then
      s1.headerWidths.map (fun w =>
        max set.minColumnWidthPx ((jsRound w : ℤ) : ℚ))
    else
      List.replicate s1.colCount
        (max set.minColumnWidthPx
          ((⌊max 1 containerWidth / (s1.colCount : ℚ)⌋ : ℤ) : ℚ))
  let ratios := normalizeRatios (px.map (fun w => max 1 w))
  ({ s1 with
      colWidths := applyColWidths set.minColumnWidthPx s1.colWidths px,
      managed := true },
   storePut st1 resolvedKey
     { ratios := ratios, lastPxWidth := some (max 1 containerWidth),
       updatedAt := now })

/-- The initialization step of the binding algorithm: apply an applicable
stored record (as pixels when the container width is measurable, else as
percent widths with a one-shot ResizeObserver), otherwise derive and persist
a fresh record. -/
def bindInit (set : BindSettings) (s1 : TableState) (st1 : Store)
    (resolvedKey : StoreKey) (containerWidth : ℚ) (now : Int) :
    TableState × Store :=
  match storeFind st1 resolvedKey with
  | some stored =>
    if stored.ratios.length = s1.colCount then
      if 0 < containerWidth then
        ({ withTablePx s1 stored.tablePxWidth with
            colWidths := applyColWidths set.minColumnWidthPx
              (withTablePx s1 stored.tablePxWidth).colWidths
              (stored.ratios.map (fun q =>
                max set.minColumnWidthPx ((jsRound (q * containerWidth) : ℤ) : ℚ))),
            managed := true }, st1)
      else
        ({ withTablePx s1 stored.tablePxWidth with
            colPercents := stored.ratios,
            managed := true,
            observers := (withTablePx s1 stored.tablePxWidth).observers + 1 }, st1)
    else deriveInitial set s1 st1 resolvedKey containerWidth now
  | none => deriveInitial set s1 st1 resolvedKey containerWidth now

/-- The tail of the binding algorithm: wrap class, column handles
(colCount - 1 of them, created only when missing), the optional outer
handle, the optional row handles, the table ResizeObserver and the host pane
ResizeObserver, and the bound marker. -/
def bindTail (set : BindSettings) (s3 : TableState) : TableState :=
  { s3 with
    wrapClass := set.wrapLongText,
    chandles := max s3.chandles (s3.colCount - 1),
    ohandle := s3.ohandle || set.showOuterWidthHandle,
    rhandles := if set.enableRowResize then max s3.rhandles s3.rowCount
                else s3.rhandles,
    observers := s3.observers + 1 + (if s3.hasHost then 1 else 0),
    bound := true }

/-- Embedding of `TableManager.attachResizersWithKey`: resolve (and possibly
migrate) the key; an already-bound table only gets its stored ratios
re-applied; otherwise, with at least two columns, ensure the colgroup,
initialize widths, and attach handles and observers. -/
def attachResizersWithKey (set : BindSettings) (s : TableState) (st : Store)
    (path fp : String) (measuredW : ℚ) (now : Int) : TableState × Store :=
  let r := findOrMigrateToCanonicalKey st path fp
  if s.bound then applyStoredRatiosPx set s r.2 path fp measuredW
  else if s.colCount < 2 then (s, r.2)
  else
    let s1 := { s with colWidths := ensureColgroup s.colWidths s.colCount }
    let init := bindInit set s1 r.2 r.1 (max 0 measuredW) now
    (bindTail set init.1, init.2)

end TableDrag


namespace TableDrag

lemma normalizeRatios_length (px : List ℚ) :
    (normalizeRatios px).length = px.length := by
  simp only [normalizeRatios]
  split <;> simp

lemma applyColWidths_length (minW : ℚ) (cols px : List ℚ) :
    (applyColWidths minW cols px).length = cols.length := by
  induction cols generalizing px with
  | nil => rfl
  | cons c t ih =>
    cases px with
    | nil => simp [applyColWidths, ih]
    | cons w pt => simp [applyColWidths, ih]

lemma ensureColgroup_length (cols : List ℚ) (n : Nat) :
    (ensureColgroup cols n).length = n := by
  simp [ensureColgroup]
  omega

lemma ensureColgroup_of_length (cols : List ℚ) (n : Nat) (h : cols.length = n) :
    ensureColgroup cols n = cols := by
  subst h
  simp [ensureColgroup]

lemma findOrMigrate_fst (st : Store) (path fp : String) :
    (findOrMigrateToCanonicalKey st path fp).1 =
      StoreKey.canonical path (normalizeFingerprint fp) := by
  rcases hfind : storeFind st (StoreKey.canonical path (normalizeFingerprint fp))
    with _ | v
  · rcases hbest : bestLegacy st path (normalizeFingerprint fp) with _ | b <;>
      simp [findOrMigrateToCanonicalKey, hfind, hbest]
  · simp [findOrMigrateToCanonicalKey, hfind]

lemma findOrMigrate_found (st : Store) (path fp : String) (v : TableSizes)
    (h : storeFind st (StoreKey.canonical path (normalizeFingerprint fp)) =
      some v) :
    findOrMigrateToCanonicalKey st path fp =
      (StoreKey.canonical path (normalizeFingerprint fp), st) := by
  simp only [findOrMigrateToCanonicalKey, h]

lemma withTablePx_colCount (s : TableState) (tpw : Option ℚ) :
    (withTablePx s tpw).colCount = s.colCount := by
  unfold withTablePx
  cases tpw with
  | none => rfl
  | some tw => by_cases h : 0 < tw <;> simp [h]

lemma withTablePx_colWidths (s : TableState) (tpw : Option ℚ) :
    (withTablePx s tpw).colWidths = s.colWidths := by
  unfold withTablePx
  cases tpw with
  | none => rfl
  | some tw => by_cases h : 0 < tw <;> simp [h]

lemma withTablePx_chandles (s : TableState) (tpw : Option ℚ) :
    (withTablePx s tpw).chandles = s.chandles := by
  unfold withTablePx
  cases tpw with
  | none => rfl
  | some tw => by_cases h : 0 < tw <;> simp [h]

lemma withTablePx_ohandle (s : TableState) (tpw : Option ℚ) :
    (withTablePx s tpw).ohandle = s.ohandle := by
  unfold withTablePx
  cases tpw with
  | none => rfl
  | some tw => by_cases h : 0 < tw <;> simp [h]

lemma withTablePx_rhandles (s : TableState) (tpw : Option ℚ) :
    (withTablePx s tpw).rhandles = s.rhandles := by
  unfold withTablePx
  cases tpw with
  | none => rfl
  | some tw => by_cases h : 0 < tw <;> simp [h]

lemma withTablePx_observers (s : TableState) (tpw : Option ℚ) :
    (withTablePx s tpw).observers = s.observers := by
  unfold withTablePx
  cases tpw with
  | none => rfl
  | some tw => by_cases h : 0 < tw <;> simp [h]

lemma withTablePx_bound (s : TableState) (tpw : Option ℚ) :
    (withTablePx s tpw).bound = s.bound := by
  unfold withTablePx
  cases tpw with
  | none => rfl
  | some tw => by_cases h : 0 < tw <;> simp [h]

lemma deriveInitial_inv (set : BindSettings) (s1 : TableState) (st1 : Store)
    (key : StoreKey) (cw : ℚ) (now : Int) :
    (deriveInitial set s1 st1 key cw now).1.colCount = s1.colCount ∧
    (deriveInitial set s1 st1 key cw now).1.colWidths.length =
      s1.colWidths.length ∧
    ∃ stored,
      storeFind (deriveInitial set s1 st1 key cw now).2 key = some stored ∧
      stored.ratios.length = s1.colCount := by
  refine ⟨by simp [deriveInitial], ?_, ?_⟩
  · simp [deriveInitial, applyColWidths_length]
  · simp only [deriveInitial]
    refine ⟨_, storePut_find_self _ _ _, ?_⟩
    rw [normalizeRatios_length, List.length_map]
    by_cases hh : s1.headerWidths.length = s1.colCount
    · rw [if_pos hh, List.length_map, hh]
    · rw [if_neg hh, List.length_replicate]

lemma bindInit_inv (set : BindSettings) (s1 : TableState) (st1 : Store)
    (key : StoreKey) (cw : ℚ) (now : Int) :
    (bindInit set s1 st1 key cw now).1.colCount = s1.colCount ∧
    (bindInit set s1 st1 key cw now).1.colWidths.length =
      s1.colWidths.length ∧
    ∃ stored,
      storeFind (bindInit set s1 st1 key cw now).2 key = some stored ∧
      stored.ratios.length = s1.colCount := by
  cases hfind : storeFind st1 key with
  | none =>
    simp only [bindInit, hfind]
    exact deriveInitial_inv set s1 st1 key cw now
  | some stored =>
    simp only [bindInit, hfind]
    by_cases hlen : stored.ratios.length = s1.colCount
    · rw [if_pos hlen]
      by_cases hcw : 0 < cw
      · rw [if_pos hcw]
        refine ⟨by simp [withTablePx_colCount], ?_, stored, hfind, hlen⟩
        simp [applyColWidths_length, withTablePx_colWidths]
      · rw [if_neg hcw]
        refine ⟨by simp [withTablePx_colCount], ?_, stored, hfind, hlen⟩
        simp [withTablePx_colWidths]
    · rw [if_neg hlen]
      exact deriveInitial_inv set s1 st1 key cw now

end TableDrag

namespace TableDrag

lemma attachResizers_first (set : BindSettings) (s : TableState) (st : Store)
    (path fp : String) (w1 : ℚ) (now1 : Int)
    (hb : s.bound = false) (hc : 2 ≤ s.colCount) :
    (attachResizersWithKey set s st path fp w1 now1).1.bound = true ∧
    (attachResizersWithKey set s st path fp w1 now1).1.colCount = s.colCount ∧
    (attachResizersWithKey set s st path fp w1 now1).1.colWidths.length =
      s.colCount ∧
    ∃ stored,
      storeFind (attachResizersWithKey set s st path fp w1 now1).2
        (StoreKey.canonical path (normalizeFingerprint fp)) = some stored ∧
      stored.ratios.length = s.colCount := by
  have hnc : ¬ (s.colCount < 2) := not_lt.mpr hc
  simp only [attachResizersWithKey, hb, Bool.false_eq_true, if_false, if_neg hnc]
  obtain ⟨hcc, hlen, stored, hfindK, hslen⟩ :=
    bindInit_inv set
      { s with bound := false,
               colWidths := ensureColgroup s.colWidths s.colCount }
      (findOrMigrateToCanonicalKey st path fp).2
      (findOrMigrateToCanonicalKey st path fp).1 (max 0 w1) now1
  refine ⟨rfl, ?_, ?_, stored, ?_, ?_⟩
  · simpa [bindTail] using hcc
  · simp only [bindTail]
    rw [hlen]
    exact ensureColgroup_length _ _
  · rw [← findOrMigrate_fst st path fp]
    exact hfindK
  · simpa using hslen

end TableDrag

namespace TableDrag

/-- C7 amended: binding an unbound table and then binding it again leaves the
store exactly as after the single bind (no drift in stored ratios), creates
no additional handles (column, outer or row) or observers, keeps the table
bound, and only re-applies the stored ratios at the freshly measured width
(and re-evaluates overflow). -/
theorem attachResizers_rebind (set : BindSettings) (s : TableState) (st : Store)
    (path fp : String) (w1 w2 : ℚ) (now1 now2 : Int)
    (hb : s.bound = false) (hc : 2 ≤ s.colCount) (hw2 : 0 < w2) :
    (attachResizersWithKey set
        (attachResizersWithKey set s st path fp w1 now1).1
        (attachResizersWithKey set s st path fp w1 now1).2
        path fp w2 now2).2 =
      (attachResizersWithKey set s st path fp w1 now1).2 ∧
    (attachResizersWithKey set
        (attachResizersWithKey set s st path fp w1 now1).1
        (attachResizersWithKey set s st path fp w1 now1).2
        path fp w2 now2).1.chandles =
      (attachResizersWithKey set s st path fp w1 now1).1.chandles ∧
    (attachResizersWithKey set
        (attachResizersWithKey set s st path fp w1 now1).1
        (attachResizersWithKey set s st path fp w1 now1).2
        path fp w2 now2).1.ohandle =
      (attachResizersWithKey set s st path fp w1 now1).1.ohandle ∧
    (attachResizersWithKey set
        (attachResizersWithKey set s st path fp w1 now1).1
        (attachResizersWithKey set s st path fp w1 now1).2
        path fp w2 now2).1.rhandles =
      (attachResizersWithKey set s st path fp w1 now1).1.rhandles ∧
    (attachResizersWithKey set
        (attachResizersWithKey set s st path fp w1 now1).1
        (attachResizersWithKey set s st path fp w1 now1).2
        path fp w2 now2).1.observers =
      (attachResizersWithKey set s st path fp w1 now1).1.observers ∧
    (attachResizersWithKey set
        (attachResizersWithKey set s st path fp w1 now1).1
        (attachResizersWithKey set s st path fp w1 now1).2
        path fp w2 now2).1.bound = true ∧
    ∃ stored,
      storeFind (attachResizersWithKey set s st path fp w1 now1).2
        (StoreKey.canonical path (normalizeFingerprint fp)) = some stored ∧
      (attachResizersWithKey set
          (attachResizersWithKey set s st path fp w1 now1).1
          (attachResizersWithKey set s st path fp w1 now1).2
          path fp w2 now2).1.colWidths =
        applyColWidths set.minColumnWidthPx
          (attachResizersWithKey set s st path fp w1 now1).1.colWidths
          (stored.ratios.map (fun q =>
            max set.minColumnWidthPx ((jsRound (q * w2) : ℤ) : ℚ))) := by
  obtain ⟨hbound, hcc, hlen, stored, hfind, hslen⟩ :=
    attachResizers_first set s st path fp w1 now1 hb hc
  set first := attachResizersWithKey set s st path fp w1 now1 with hfirstdef
  have hr : findOrMigrateToCanonicalKey first.2 path fp =
      (StoreKey.canonical path (normalizeFingerprint fp), first.2) :=
    findOrMigrate_found _ _ _ stored hfind
  have hnc2 : ¬ (first.1.colCount < 2) := by
    rw [hcc]
    exact not_lt.mpr hc
  have hens : ensureColgroup first.1.colWidths first.1.colCount =
      first.1.colWidths :=
    ensureColgroup_of_length _ _ (by rw [hlen, hcc])
  have hlen2 : stored.ratios.length = first.1.colCount := by rw [hslen, hcc]
  have hsecond : attachResizersWithKey set first.1 first.2 path fp w2 now2 =
      applyStoredRatiosPx set first.1 first.2 path fp w2 := by
    simp only [attachResizersWithKey, hr, hbound, if_true]
  rw [hsecond]
  have happly : applyStoredRatiosPx set first.1 first.2 path fp w2 =
      ({ withTablePx first.1 stored.tablePxWidth with
          colWidths := applyColWidths set.minColumnWidthPx
            (withTablePx first.1 stored.tablePxWidth).colWidths
            (stored.ratios.map (fun q =>
              max set.minColumnWidthPx ((jsRound (q * w2) : ℤ) : ℚ))),
          managed := true }, first.2) := by
    simp only [applyStoredRatiosPx, if_neg hnc2, hens, hr, hfind, hlen2,
      ne_eq, not_true_eq_false, if_false, applyStoredPx,
      if_neg (not_le.mpr hw2)]
  rw [happly]
  refine ⟨rfl, ?_, ?_, ?_, ?_, ?_, stored, hfind, ?_⟩
  · simp [withTablePx_chandles]
  · simp [withTablePx_ohandle]
  · simp [withTablePx_rhandles]
  · simp [withTablePx_observers]
  · simp [withTablePx_bound, hbound]
  · simp [withTablePx_colWidths]

end TableDrag

namespace TableDrag

lemma jsRound_eval (x : ℚ) (n : ℤ) (h1 : (n : ℚ) ≤ x + 1 / 2)
    (h2 : x + 1 / 2 < (n : ℚ) + 1) : jsRound x = n := by
  unfold jsRound
  exact Int.floor_eq_iff.mpr ⟨h1, h2⟩

/-- The settings used by the C7 concrete scenario. -/
def setC : BindSettings :=
  { minColumnWidthPx := 60, showOuterWidthHandle := false,
    enableRowResize := false, wrapLongText := false }

/-- The unbound two-column table of the C7 concrete scenario, with header
cell widths 100 and 300. -/
def s0C : TableState :=
  { bound := false, colCount := 2, rowCount := 2, headerWidths := [100, 300],
    colWidths := [], colPercents := [], styleWidth := none, managed := false,
    wrapClass := false, chandles := 0, ohandle := false, rhandles := 0,
    observers := 0, hasHost := false }

/-- The canonical key of the C7 scenario table. -/
def canonC : StoreKey := StoreKey.canonical "d.md" (normalizeFingerprint "2:A|B")

/-- The store after the first bind of the C7 scenario. -/
def st1C : Store :=
  [(canonC, { ratios := [1/4, 3/4], lastPxWidth := some 500, updatedAt := 1 })]

/-- The table state after the first bind of the C7 scenario. -/
def s1C : TableState :=
  { s0C with
    colWidths := [100, 300],
    managed := true,
    chandles := 1,
    observers := 1,
    bound := true }

lemma bindOnceC :
    attachResizersWithKey setC s0C [] "d.md" "2:A|B" 500 1 = (s1C, st1C) := by
  have e100 : jsRound (100 : ℚ) = 100 := jsRound_eval 100 100 (by norm_num) (by norm_num)
  have e300 : jsRound (300 : ℚ) = 300 := jsRound_eval 300 300 (by norm_num) (by norm_num)
  norm_num [attachResizersWithKey, bindInit, deriveInitial, bindTail,
    applyColWidths, ensureColgroup, normalizeRatios, storePut, storeFind,
    bestLegacy, findOrMigrateToCanonicalKey, setC, s0C, s1C, st1C, canonC,
    e100, e300, max_def]

lemma bindTwiceC :
    attachResizersWithKey setC s1C st1C "d.md" "2:A|B" 500 2 =
      ({ s1C with colWidths := [125, 375] }, st1C) := by
  have e125 : jsRound (125 : ℚ) = 125 := jsRound_eval 125 125 (by norm_num) (by norm_num)
  have e375 : jsRound (375 : ℚ) = 375 := jsRound_eval 375 375 (by norm_num) (by norm_num)
  norm_num [attachResizersWithKey, applyStoredRatiosPx, applyStoredPx,
    withTablePx, applyColWidths, ensureColgroup, storeFind_cons,
    findOrMigrateToCanonicalKey, setC, s1C, s0C, st1C, canonC,
    e125, e375, max_def]

/-- C7 counterexample: header-derived first bind applies widths 100 and 300
at measured width 500; a second bind at the same measured width re-applies
the stored ratios 1/4 and 3/4 and lands on 125 and 375 — binding twice does
not produce the same visible column widths as binding once. -/
theorem attachResizers_twice_counterexample :
    (attachResizersWithKey setC
        (attachResizersWithKey setC s0C [] "d.md" "2:A|B" 500 1).1
        (attachResizersWithKey setC s0C [] "d.md" "2:A|B" 500 1).2
        "d.md" "2:A|B" 500 2).1.colWidths ≠
      (attachResizersWithKey setC s0C [] "d.md" "2:A|B" 500 1).1.colWidths := by
  rw [bindOnceC]
  show (attachResizersWithKey setC s1C st1C "d.md" "2:A|B" 500 2).1.colWidths ≠ _
  rw [bindTwiceC]
  norm_num [s1C, s0C]

/-- Witness for C7 amended, at the concrete scenario input: the second bind
leaves the store as after the first bind and the observer count unchanged. -/
theorem attachResizers_rebind_witness :
    s0C.bound = false ∧ 2 ≤ s0C.colCount ∧ (0 : ℚ) < 500 ∧
    ((attachResizersWithKey setC
        (attachResizersWithKey setC s0C [] "d.md" "2:A|B" 500 1).1
        (attachResizersWithKey setC s0C [] "d.md" "2:A|B" 500 1).2
        "d.md" "2:A|B" 500 2).2 =
      (attachResizersWithKey setC s0C [] "d.md" "2:A|B" 500 1).2 ∧
    (attachResizersWithKey setC
        (attachResizersWithKey setC s0C [] "d.md" "2:A|B" 500 1).1
        (attachResizersWithKey setC s0C [] "d.md" "2:A|B" 500 1).2
        "d.md" "2:A|B" 500 2).1.observers =
      (attachResizersWithKey setC s0C [] "d.md" "2:A|B" 500 1).1.observers) := by
  refine ⟨rfl, by norm_num [s0C], by norm_num, ?_⟩
  have h := attachResizers_rebind setC s0C [] "d.md" "2:A|B" 500 500 1 2 rfl
    (by norm_num [s0C]) (by norm_num)
  exact ⟨h.1, h.2.2.2.2.1⟩

end TableDrag
